import Mathlib

/-!
# go-dep-report: report flattening, formatters and driver

A shallow embedding of `report.go` (the `Formatter` implementations, `Run`,
`format`, `formatDeps`) and of the argument validator of the root command in
`cmd/go-dep-report/root.go`, followed by the properties proved about them.

Conventions of the embedding:

* Go strings and byte slices are Lean `String`s; `[]byte(s)` is the identity.
* A Go function whose only effect is to call methods of the `Context`
  collaborators returns the list of those calls, in program order.
* Declarations that live outside the two embedded files (`Pkg`, the `Entry`
  methods of `*Pkg`, `Tree.Resolve`) are modelled from the specification or
  taken as parameters; each such place says so.
-/

namespace GoDepReport

/-! ## Data model -/

/-- Modelled from the spec: the `Pkg` node type, declared outside `report.go`.
The specification's PackageNode has a name, the internal flag, a license and
the ordered sequence of child nodes; `report.go` itself reads only `Internal`
and `Deps`. -/
inductive Pkg where
  | mk (Name : String) (Internal : Bool) (License : String) (Deps : List Pkg)

namespace Pkg

/-- Field `Name`. -/
def Name : Pkg → String
  | mk n _ _ _ => n

/-- Field `Internal`. -/
def Internal : Pkg → Bool
  | mk _ i _ _ => i

/-- Field `License`. -/
def License : Pkg → String
  | mk _ _ l _ => l

/-- Field `Deps`. -/
def Deps : Pkg → List Pkg
  | mk _ _ _ d => d

end Pkg

/-- The `Entry` interface as a formatter observes it: the results of its three
methods `ParentPkgName()`, `PkgName()` and `LicenseName()`. -/
structure Entry where
  ParentPkgName : String
  PkgName : String
  LicenseName : String
  deriving DecidableEq, Repr

/-! ## Report flattening (`format`, `formatDeps`) -/

/-- Go `formatDeps(ctx, deps)`: ranges over `deps` and calls
`ctx.Formatter().AddEntry(ctx, &dep)` for every `dep` with `!dep.Internal`.
The result is the sequence of nodes handed to `AddEntry`, in call order. -/
def formatDeps : List Pkg → List Pkg
  | [] => []
  | dep :: rest =>
    if !dep.Internal then dep :: formatDeps rest else formatDeps rest

mutual
/-- Go `format(ctx, root)`: first `formatDeps(ctx, root.Deps)`, then the loop
`for _, dep := range root.Deps { format(ctx, dep) }`. The result is the
sequence of nodes handed to `AddEntry`, in call order. -/
def format : Pkg → List Pkg
  | .mk _ _ _ deps => formatDeps deps ++ formatEach deps
/-- The range loop of `format` over `root.Deps`. -/
def formatEach : List Pkg → List Pkg
  | [] => []
  | dep :: rest => format dep ++ formatEach rest
end

/-! ### Reference listings of a tree, written from the specification -/

mutual
/-- The non-root nodes of a tree in depth-first pre-order: a node, then its
whole subtree, then its next sibling, siblings in `Deps` order. -/
def descendants : Pkg → List Pkg
  | .mk _ _ _ deps => descendantsOfList deps
/-- Pre-order listing of a forest. -/
def descendantsOfList : List Pkg → List Pkg
  | [] => []
  | dep :: rest => dep :: (descendants dep ++ descendantsOfList rest)
end

/-- The nodes of a tree that are not internal, out of a listing. -/
def externalOnly (nodes : List Pkg) : List Pkg :=
  nodes.filter (fun p => !p.Internal)

mutual
/-- Number of nodes of a tree, the root included. -/
def nodeCount : Pkg → Nat
  | .mk _ _ _ deps => 1 + nodeCountOfList deps
/-- Number of nodes of a forest. -/
def nodeCountOfList : List Pkg → Nat
  | [] => 0
  | dep :: rest => nodeCount dep + nodeCountOfList rest
end

/-! ### Sample trees -/

/-- A node without dependencies. -/
def leafPkg (name : String) (internal : Bool) : Pkg :=
  .mk name internal "MIT" []

/-- The tree `root -> [A -> [C], B]`, every node external. -/
def sampleTree : Pkg :=
  .mk "root" false "" [.mk "A" false "MIT" [leafPkg "C" false], leafPkg "B" false]

/-- A tree with an external node below an internal one:
`root -> [I (internal) -> [X], Y]`. -/
def mixedTree : Pkg :=
  .mk "root" true "" [.mk "I" true "" [leafPkg "X" false], leafPkg "Y" false]

/-! ## Output side: writer and logger -/

/-- A record made through `ctx.Log()`: its level, its message and the error
value that goes with it. -/
structure LogEntry where
  level : String
  message : String
  error : String
  deriving DecidableEq, Repr

/-- Behaviour of `ctx.Writer().Write(p)`: from the bytes the sink already holds
and the chunk `p`, the bytes the sink holds afterwards and the error returned,
if any. -/
abbrev Writer := String → String → String × Option String

/-- A writer that accepts every write. -/
def acceptAll : Writer := fun held p => (held ++ p, none)

/-- A writer that refuses every write and keeps nothing. -/
def rejectAll : Writer := fun held _ => (held, some "write refused")

/-- What a run leaves behind on the output side: the bytes held by the sink,
the chunks passed to the writer (one per `Write` call on it, in order) and the
log records made. -/
structure Output where
  sink : String
  writes : List String
  log : List LogEntry
  deriving DecidableEq, Repr

/-- The untouched output side. -/
def Output.empty : Output := ⟨"", [], []⟩

/-- One call `ctx.Writer().Write([]byte(p))`; returns the error of the call. -/
def Output.write (w : Writer) (o : Output) (p : String) : Output × Option String :=
  let r := w o.sink p
  ({ o with sink := r.1, writes := o.writes ++ [p] }, r.2)

/-- One call `ctx.Log()...Error(message)` carrying `err`. -/
def Output.logError (o : Output) (message err : String) : Output :=
  { o with log := o.log ++ [⟨"error", message, err⟩] }

/-- The `if err != nil { ctx.Log()...Error(message) }` step after a call. -/
def Output.logIfError (o : Output) (message : String) : Option String → Output
  | none => o
  | some err => o.logError message err

/-! ## `FormatterCSV` -/

/-- Go `fmt.Sprintf("%s,%s,%s\n", a, b, c)`. -/
def sprintfLine (a b c : String) : String :=
  a ++ "," ++ b ++ "," ++ c ++ "\n"

/-- Go `type FormatterCSV struct { lines []string }`. -/
structure FormatterCSV where
  lines : List String
  deriving DecidableEq, Repr

/-- The value `&FormatterCSV{}`. -/
def FormatterCSV.fresh : FormatterCSV := ⟨[]⟩

/-- Go `(*FormatterCSV).AddEntry`. -/
def FormatterCSV.AddEntry (formatter : FormatterCSV) (entry : Entry) : FormatterCSV :=
  let line := sprintfLine entry.ParentPkgName entry.PkgName entry.LicenseName
  { lines := formatter.lines ++ [line] }

/-- The loop `for _, line := range formatter.lines` of `(*FormatterCSV).Write`:
each line is written; a failed write is logged and the loop goes on. -/
def FormatterCSV.writeLines (w : Writer) : List String → Output → Output
  | [], o => o
  | line :: rest, o =>
    let r := o.write w line
    FormatterCSV.writeLines w rest (r.1.logIfError "could not write CSV line: %v" r.2)

/-- Go `(*FormatterCSV).Write`: the header line, then every accumulated line. -/
def FormatterCSV.Write (w : Writer) (formatter : FormatterCSV) (o : Output) : Output :=
  let r := o.write w (sprintfLine "Parent" "Package" "License")
  FormatterCSV.writeLines w formatter.lines
    (r.1.logIfError "could not write CSV Header: %v" r.2)

/-! ## `FormatterJSON` -/

/-- Go `type formattingEntry struct`, three string fields tagged `parent`,
`package`, `license`. -/
structure formattingEntry where
  Parent : String
  Package : String
  License : String
  deriving DecidableEq, Repr

/-- A Go slice value: the nil slice, or a slice with the given elements. -/
inductive GoSlice (α : Type) where
  | nil
  | elems (xs : List α)
  deriving DecidableEq, Repr

/-- Go `append(s, x)`: appending to the nil slice allocates. -/
def GoSlice.append {α : Type} : GoSlice α → α → GoSlice α
  | .nil, x => .elems [x]
  | .elems xs, x => .elems (xs ++ [x])

/-- Elements of a slice; the nil slice has none. -/
def GoSlice.toList {α : Type} : GoSlice α → List α
  | .nil => []
  | .elems xs => xs

/-- The JSON documents `encoding/json` produces for a `[]formattingEntry`:
`null`, or an array of objects whose members are strings, members in order. -/
inductive JsonDoc where
  | null
  | array (objects : List (List (String × String)))
  deriving DecidableEq, Repr

/-- The object `encoding/json` makes of one `formattingEntry`: the exported
fields in declaration order under their `json` tag names. -/
def formattingEntry.toObject (e : formattingEntry) : List (String × String) :=
  [("parent", e.Parent), ("package", e.Package), ("license", e.License)]

/-- The value mapping of `encoding/json` at type `[]formattingEntry`: a nil
slice encodes as the JSON value `null`, any other slice as an array. -/
def jsonOfEntries : GoSlice formattingEntry → JsonDoc
  | .nil => .null
  | .elems xs => .array (xs.map formattingEntry.toObject)

/-- Indentation of `depth` levels for `MarshalIndent(v, "", "  ")`. -/
def indentOf : Nat → String
  | 0 => ""
  | n + 1 => indentOf n ++ "  "

/-- Elements separated by a comma, a newline and the indentation. -/
def joinIndented (depth : Nat) : List String → String
  | [] => ""
  | [x] => x
  | x :: y :: rest => x ++ ",\n" ++ indentOf depth ++ joinIndented depth (y :: rest)

/-- Indented text of a bracketed JSON container whose elements are already
rendered one level deeper; an empty container has no line break. -/
def renderContainer (opening closing : String) (depth : Nat) (items : List String) : String :=
  match items with
  | [] => opening ++ closing
  | _ => opening ++ "\n" ++ indentOf (depth + 1) ++ joinIndented (depth + 1) items
      ++ "\n" ++ indentOf depth ++ closing

/-- Indented text of an object at nesting `depth`; `quote` is the JSON string
literal `encoding/json` writes for a Go string (its escaping rules are not
modelled and stay a parameter). -/
def renderObject (quote : String → String) (depth : Nat)
    (members : List (String × String)) : String :=
  renderContainer "\x7b" "\x7d" depth
    (members.map (fun m => quote m.1 ++ ": " ++ quote m.2))

/-- Indented text of a document, as `json.MarshalIndent(v, "", "  ")` lays it
out: two more spaces per nesting level, one element or member per line. -/
def renderDoc (quote : String → String) : JsonDoc → String
  | .null => "null"
  | .array objects => renderContainer "[" "]" 0 (objects.map (renderObject quote 1))

/-- Go `json.MarshalIndent(entries, "", "  ")` at type `[]formattingEntry`;
encoding strings has no failure case, so the error is always nil. -/
def MarshalIndent (quote : String → String) (entries : GoSlice formattingEntry) :
    String × Option String :=
  (renderDoc quote (jsonOfEntries entries), none)

/-- String literals for text that needs no escaping. -/
def plainQuote (s : String) : String := "\"" ++ s ++ "\""

/-- Go `type FormatterJSON struct { entries []formattingEntry }`. -/
structure FormatterJSON where
  entries : GoSlice formattingEntry
  deriving DecidableEq, Repr

/-- The value `&FormatterJSON{}`: the `entries` slice is nil. -/
def FormatterJSON.fresh : FormatterJSON := ⟨.nil⟩

/-- Go `(*FormatterJSON).AddEntry`. -/
def FormatterJSON.AddEntry (formatter : FormatterJSON) (entry : Entry) : FormatterJSON :=
  { entries := formatter.entries.append
      { Parent := entry.ParentPkgName, Package := entry.PkgName, License := entry.LicenseName } }

/-- Go `(*FormatterJSON).Write`: marshal, log an encoding error, write the
document with one call, log a write error. -/
def FormatterJSON.Write (quote : String → String) (w : Writer) (formatter : FormatterJSON)
    (o : Output) : Output :=
  let m := MarshalIndent quote formatter.entries
  let o1 := o.logIfError "could not encode formatting entry to JSON" m.2
  let r := o1.write w m.1
  r.1.logIfError "could not write JSON" r.2

/-- Concatenation of chunks, in order. -/
def concatAll : List String → String
  | [] => ""
  | x :: rest => x ++ concatAll rest

/-- The two entries `(root, pkgA, MIT)` and `(pkgA, pkgB, Apache-2.0)`. -/
def sampleEntries : List Entry :=
  [⟨"root", "pkgA", "MIT"⟩, ⟨"pkgA", "pkgB", "Apache-2.0"⟩]

/-! ## The driver (`Run`) -/

/-- The `Tree` value `Run` builds. Its declaration is outside `report.go`; the
fields are the ones `Run` names, and `Root` is a pointer (`*t.Root` is
dereferenced), nil until a `Resolve` call sets it. -/
structure Tree where
  Root : Option Pkg
  ResolveInternal : Bool
  ResolveTest : Bool
  MaxDepth : Int

/-- The method `(*Tree).Resolve(ctx, pkg)`, declared outside `report.go` and
taken as a parameter of the driver: from the tree and a root identifier, the
tree afterwards and the error returned, if any. -/
abbrev Resolver := Tree → String → Tree × Option String

/-- The calls `Run` makes on its collaborators, in program order. `Close` is
the method `Context.Close()`; `Fatal` is `ctx.Log()...Fatal(err)`. -/
inductive Call where
  | Resolve (pkg : String)
  | AddEntry (node : Pkg)
  | Write
  | Close
  | Fatal (err : String)

/-- How a call of `Run` ends: it returns, the process exits with a status, or
it panics on a nil pointer dereference. The logger of `root.go` is
`logrus.New()`, whose `Fatal` writes the record and then ends the process with
status 1. -/
inductive Outcome where
  | returned
  | exited (status : Nat)
  | panicked
  deriving DecidableEq, Repr

/-- The calls made by a run and the way it ended. -/
structure RunResult where
  calls : List Call
  outcome : Outcome

/-- The loop `for _, pkg := range ctx.Packages()` of `Run`: every root is
resolved on the same tree; an error goes to `Fatal`, which ends the process.
Returns the calls made, and the tree after the loop or the fatal error. -/
def resolveRoots (resolve : Resolver) : Tree → List String → List Call × Except String Tree
  | t, [] => ([], .ok t)
  | t, pkg :: rest =>
    match resolve t pkg with
    | (_, some err) => ([.Resolve pkg, .Fatal err], .error err)
    | (t1, none) =>
      let r := resolveRoots resolve t1 rest
      (.Resolve pkg :: r.1, r.2)

/-- Go `Run(ctx)`, with `depth = ctx.Depth()` and `packages = ctx.Packages()`:
a fresh tree, the resolve loop, then `format(ctx, *t.Root)` and
`ctx.Formatter().Write(ctx)`. -/
def Run (resolve : Resolver) (depth : Int) (packages : List String) : RunResult :=
  let t : Tree := { Root := none, ResolveInternal := false, ResolveTest := false,
                    MaxDepth := depth }
  match resolveRoots resolve t packages with
  | (calls, .error _) => { calls := calls, outcome := .exited 1 }
  | (calls, .ok t1) =>
    match t1.Root with
    | none => { calls := calls, outcome := .panicked }
    | some root =>
      { calls := calls ++ (format root).map Call.AddEntry ++ [Call.Write],
        outcome := .returned }

/-- The `Run` function of the root command in `root.go`:
`func(cmd, args) { godepreport.Run(ctx) }`, and nothing after it. -/
def rootCmdRun (resolve : Resolver) (depth : Int) (packages : List String) : RunResult :=
  Run resolve depth packages

/-! ### Calls, and what they do to a context -/

/-- Is the call an `AddEntry`? -/
def Call.isAddEntry : Call → Bool
  | .AddEntry _ => true
  | _ => false

/-- Is the call a `Write` on the formatter? -/
def Call.isWrite : Call → Bool
  | .Write => true
  | _ => false

/-- Is the call a `Close` on the context? -/
def Call.isClose : Call → Bool
  | .Close => true
  | _ => false

/-- The nodes handed to `AddEntry`, in call order. -/
def addedNodes : List Call → List Pkg
  | [] => []
  | .AddEntry node :: rest => node :: addedNodes rest
  | _ :: rest => addedNodes rest

/-- Short text of a call, for reading traces. -/
def Call.describe : Call → String
  | .Resolve pkg => "Resolve " ++ pkg
  | .AddEntry node => "AddEntry " ++ node.Name
  | .Write => "Write"
  | .Close => "Close"
  | .Fatal err => "Fatal " ++ err

/-- An implementation of the `Formatter` interface over a state `σ`. -/
structure FormatterOps (σ : Type) where
  AddEntry : σ → Entry → σ
  Write : Writer → σ → Output → Output

/-- The `FormatterCSV` implementation. -/
def csvFormatter : FormatterOps FormatterCSV :=
  ⟨FormatterCSV.AddEntry, FormatterCSV.Write⟩

/-- The `FormatterJSON` implementation. -/
def jsonFormatter (quote : String → String) : FormatterOps FormatterJSON :=
  ⟨FormatterJSON.AddEntry, FormatterJSON.Write quote⟩

/-- The mutable part of a `Context`: the formatter's state, the output side,
and whether `Close` has released the sink. -/
structure ContextState (σ : Type) where
  formatter : σ
  out : Output
  closed : Bool

/-- Effect of one call on a context whose formatter is `ops` and whose writer
behaves as `w`. `asEntry` stands for the `Entry` methods of `*Pkg`, declared
outside `report.go`. `Resolve` does not touch the formatter or the sink. -/
def perform {σ : Type} (ops : FormatterOps σ) (w : Writer) (asEntry : Pkg → Entry)
    (s : ContextState σ) : Call → ContextState σ
  | .Resolve _ => s
  | .AddEntry node => { s with formatter := ops.AddEntry s.formatter (asEntry node) }
  | .Write => { s with out := ops.Write w s.formatter s.out }
  | .Close => { s with closed := true }
  | .Fatal err => { s with out := { s.out with log := s.out.log ++ [⟨"fatal", "", err⟩] } }

/-- Effect of a sequence of calls, in order. -/
def performAll {σ : Type} (ops : FormatterOps σ) (w : Writer) (asEntry : Pkg → Entry)
    (s : ContextState σ) (calls : List Call) : ContextState σ :=
  calls.foldl (perform ops w asEntry) s

/-! ### Sample collaborators -/

/-- The tree of root `a`: `a -> [x]`, `x` external. -/
def sampleTreeA : Pkg := .mk "a" true "" [leafPkg "x" false]

/-- The tree of root `b`: `b -> [y]`, `y` external. -/
def sampleTreeB : Pkg := .mk "b" true "" [leafPkg "y" false]

/-- A resolver in the way the specification describes `Resolve`: the call
populates `Root` with the tree of the given root identifier, here `a -> [x]`
and `b -> [y]` with `x`, `y` external; any other identifier fails. -/
def sampleResolve : Resolver := fun t pkg =>
  if pkg = "a" then ({ t with Root := some sampleTreeA }, none)
  else if pkg = "b" then ({ t with Root := some sampleTreeB }, none)
  else (t, some ("cannot resolve " ++ pkg))

/-- An `Entry` view of a node that has no parent information. -/
def sampleAsEntry (node : Pkg) : Entry :=
  ⟨"", node.Name, node.License⟩

/-! ## The argument validator of the root command (`root.go`) -/

/-- The formatter the `format` option selects. -/
inductive FormatterKind where
  | csv
  | json
  | yaml
  deriving DecidableEq, Repr

/-- Where `ctx.writer` points. -/
inductive SinkTarget where
  | stdout
  | file (name : String)
  deriving DecidableEq, Repr

/-- The values the option store returns for the keys the validator reads. -/
structure Settings where
  verbose : Bool
  logFormat : String
  outFile : String
  format : String
  config : String

/-- The outside world the validator calls: `strings.ToLower`, `os.Create`
(the error, if any) and `viper.ReadInConfig` for a given explicit config file
(the error, if any). -/
structure World where
  toLower : String → String
  create : String → Option String
  readInConfig : String → Option String

/-- Go `type context struct` of `root.go`, as far as the validator assigns
it: the `packages` key of the option store, the logger's level and formatter,
the writer, the `close` function, the formatter and the explicit config
file. -/
structure context where
  packages : List String
  debugLevel : Bool
  textLog : Bool
  writer : Option SinkTarget
  hasClose : Bool
  formatter : Option FormatterKind
  configFile : String
  deriving DecidableEq, Repr

/-- Go `(*context).Packages()`: the `packages` key of the option store. -/
def context.Packages (ctx : context) : List String := ctx.packages

/-- The context before validation. -/
def context.initial : context :=
  ⟨[], false, false, none, false, none, ""⟩

/-- The `Args` function of the root command: the context after the call and
the error returned, if any. -/
def rootCmdArgs (world : World) (settings : Settings) (ctx : context)
    (args : List String) : context × Option String :=
  if args.length ≠ 1 then
    (ctx, some ("expected 1 or more package names, got " ++ toString args.length))
  else
    let ctx1 := { ctx with packages := args }
    let ctx2 := if settings.verbose then { ctx1 with debugLevel := true } else ctx1
    let logFormat := world.toLower settings.logFormat
    if logFormat ≠ "text" ∧ logFormat ≠ "json" then
      (ctx2, some ("invalid log format specified [" ++ logFormat
        ++ "] valid values are [text, json]"))
    else
      let ctx3 := if logFormat = "text" then { ctx2 with textLog := true } else ctx2
      let outFile := world.toLower settings.outFile
      match (if outFile ≠ "" then world.create outFile else none) with
      | some err => (ctx3, some err)
      | none =>
        let ctx4 :=
          if outFile ≠ "" then { ctx3 with writer := some (.file outFile), hasClose := true }
          else { ctx3 with writer := some .stdout }
        let format := world.toLower settings.format
        let kind : Option FormatterKind :=
          if format = "csv" then some .csv
          else if format = "json" then some .json
          else if format = "yaml" then some .yaml
          else none
        match kind with
        | none => (ctx4, some ("invalid format specified [" ++ format
            ++ "] valid values are [csv, json, yaml]"))
        | some k =>
          let ctx5 := { ctx4 with formatter := some k }
          let ctx6 := if settings.config ≠ "" then { ctx5 with configFile := settings.config }
                      else ctx5
          match world.readInConfig ctx6.configFile with
          | some err => (ctx6, some err)
          | none => (ctx6, none)

/-- Lower-casing of the ASCII letters, character by character; on ASCII text it
agrees with `strings.ToLower`. -/
def asciiLower (s : String) : String :=
  String.mk (s.data.map Char.toLower)

/-- A world in which every file can be created and the configuration is read
without error. -/
def sampleWorld : World :=
  ⟨asciiLower, fun _ => none, fun _ => none⟩

/-- The option defaults of `root.go`: format `csv`, log format `text`, no
output file, no explicit config file. -/
def defaultSettings : Settings :=
  ⟨false, "text", "", "csv", ""⟩

/-! ## Properties of the flattening -/

theorem formatDeps_eq_externalOnly (deps : List Pkg) :
    formatDeps deps = externalOnly deps := by
  induction deps with
  | nil => rfl
  | cons dep rest ih =>
    cases h : dep.Internal <;> simp [formatDeps, externalOnly, h] <;>
      simpa [externalOnly] using ih

theorem externalOnly_append (xs ys : List Pkg) :
    externalOnly (xs ++ ys) = externalOnly xs ++ externalOnly ys := by
  simp [externalOnly]

theorem format_mk (n : String) (i : Bool) (l : String) (deps : List Pkg) :
    format (.mk n i l deps) = formatDeps deps ++ formatEach deps := by
  simp [format]

theorem descendants_mk (n : String) (i : Bool) (l : String) (deps : List Pkg) :
    descendants (.mk n i l deps) = descendantsOfList deps := by
  simp [descendants]

mutual
theorem format_perm_descendants :
    ∀ root : Pkg, (format root).Perm (externalOnly (descendants root))
  | .mk n i l deps => by
    rw [format_mk, descendants_mk]
    exact formatForest_perm deps
theorem formatForest_perm :
    ∀ deps : List Pkg,
      (formatDeps deps ++ formatEach deps).Perm (externalOnly (descendantsOfList deps))
  | [] => by simp [formatDeps, formatEach, descendantsOfList, externalOnly]
  | dep :: rest => by
    have h1 := format_perm_descendants dep
    have h2 := formatForest_perm rest
    have e1 : formatDeps (dep :: rest) = externalOnly [dep] ++ formatDeps rest := by
      rw [formatDeps_eq_externalOnly, formatDeps_eq_externalOnly,
        ← externalOnly_append]; rfl
    have e2 : externalOnly (descendantsOfList (dep :: rest))
        = externalOnly [dep] ++ (externalOnly (descendants dep)
            ++ externalOnly (descendantsOfList rest)) := by
      rw [← externalOnly_append, ← externalOnly_append]; simp [descendantsOfList]
    have e3 : formatEach (dep :: rest) = format dep ++ formatEach rest := by
      simp [formatEach]
    rw [e1, e2, e3, List.append_assoc]
    refine List.Perm.append_left _ ?_
    have step : (formatDeps rest ++ (format dep ++ formatEach rest)).Perm
        (format dep ++ (formatDeps rest ++ formatEach rest)) := by
      rw [← List.append_assoc, ← List.append_assoc]
      exact List.Perm.append_right _ List.perm_append_comm
    exact step.trans (List.Perm.append h1 h2)
end


theorem mem_externalOnly {p : Pkg} {nodes : List Pkg} :
    p ∈ externalOnly nodes ↔ p ∈ nodes ∧ p.Internal = false := by
  simp [externalOnly]

mutual
theorem nodeCount_descendants_lt :
    ∀ root : Pkg, ∀ p ∈ descendants root, nodeCount p < nodeCount root
  | .mk n i l deps => by
    intro p hp
    rw [descendants_mk] at hp
    have h := nodeCount_descendantsOfList_le deps p hp
    simp only [nodeCount]
    omega
theorem nodeCount_descendantsOfList_le :
    ∀ deps : List Pkg, ∀ p ∈ descendantsOfList deps, nodeCount p ≤ nodeCountOfList deps
  | [] => by simp [descendantsOfList]
  | dep :: rest => by
    intro p hp
    simp only [descendantsOfList, List.mem_cons, List.mem_append] at hp
    simp only [nodeCountOfList]
    rcases hp with h | h | h
    · subst h; omega
    · have := nodeCount_descendants_lt dep p h; omega
    · have := nodeCount_descendantsOfList_le rest p h; omega
end

mutual
theorem format_eq_flatMap :
    ∀ root : Pkg,
      format root = (root :: descendants root).flatMap (fun n => externalOnly n.Deps)
  | .mk n i l deps => by
    rw [format_mk, descendants_mk, List.flatMap_cons, formatDeps_eq_externalOnly,
      formatEach_eq_flatMap deps]
    rfl
theorem formatEach_eq_flatMap :
    ∀ deps : List Pkg,
      formatEach deps = (descendantsOfList deps).flatMap (fun n => externalOnly n.Deps)
  | [] => by simp [formatEach, descendantsOfList]
  | dep :: rest => by
    simp only [formatEach, descendantsOfList, List.flatMap_cons, List.flatMap_append]
    rw [format_eq_flatMap dep, formatEach_eq_flatMap rest, List.flatMap_cons,
      List.append_assoc]
end

/-- C1: no node handed to `AddEntry` by `format` has `Internal == true`,
whatever the shape of the tree and the mix of internal and external nodes. -/
theorem format_emits_no_internal (root : Pkg) (p : Pkg) (hp : p ∈ format root) :
    p.Internal = false :=
  (mem_externalOnly.mp ((format_perm_descendants root).subset hp)).2

/-- Witness of C1: in `root -> [I (internal) -> [X], Y]` the node `X`, below
the internal node `I`, is emitted and is external. -/
theorem format_emits_no_internal_witness :
    leafPkg "X" false ∈ format mixedTree ∧ (leafPkg "X" false).Internal = false :=
  have hmem : leafPkg "X" false ∈ format mixedTree :=
    List.mem_cons_of_mem _ (List.mem_cons_self _ _)
  ⟨hmem, format_emits_no_internal mixedTree (leafPkg "X" false) hmem⟩

/-- C2: `format` hands to `AddEntry` exactly the non-root nodes with
`Internal == false`, each once (as multisets the emitted sequence and the
external non-root nodes agree, wherever in the tree the node lies), so the
number of entries is the number of such nodes, and the root itself is never
emitted. -/
theorem format_emits_each_external_once (root : Pkg) :
    (format root).Perm (externalOnly (descendants root)) ∧
    (format root).length = (descendants root).countP (fun p => !p.Internal) ∧
    root ∉ format root := by
  have hperm := format_perm_descendants root
  refine ⟨hperm, ?_, ?_⟩
  · rw [hperm.length_eq, externalOnly, List.countP_eq_length_filter]
  · intro hmem
    have h := (mem_externalOnly.mp (hperm.subset hmem)).1
    exact Nat.lt_irrefl _ (nodeCount_descendants_lt root root h)

/-- C3 (as stated, refuted): on `root -> [A -> [C], B]` the emitted order is
A, B, C, while the pre-order listing of the external non-root nodes is
A, C, B. -/
theorem format_not_preorder :
    (format sampleTree).map Pkg.Name = ["A", "B", "C"] ∧
    (externalOnly (descendants sampleTree)).map Pkg.Name = ["A", "C", "B"] ∧
    format sampleTree ≠ externalOnly (descendants sampleTree) := by
  refine ⟨by decide, by decide, ?_⟩
  intro h
  have h2 := congrArg (List.map Pkg.Name) h
  revert h2
  decide

/-- C3 (amended): the emitted sequence is obtained by visiting the nodes of
the tree, the root included, in depth-first pre-order and emitting, at each
visited node, its external direct children in `Deps` order. -/
theorem format_order (root : Pkg) :
    format root = (root :: descendants root).flatMap (fun n => externalOnly n.Deps) :=
  format_eq_flatMap root

/-! ## Properties of the formatters -/

theorem csv_lines_after_adds (entries : List Entry) (formatter : FormatterCSV) :
    (entries.foldl FormatterCSV.AddEntry formatter).lines
      = formatter.lines ++ entries.map (fun e =>
          e.ParentPkgName ++ "," ++ e.PkgName ++ "," ++ e.LicenseName ++ "\n") := by
  induction entries generalizing formatter with
  | nil => simp
  | cons e rest ih =>
    simp only [List.foldl_cons, ih]
    simp [FormatterCSV.AddEntry, sprintfLine]

theorem csv_writeLines_accepting (w : Writer) (hw : ∀ held p, w held p = (held ++ p, none))
    (lines : List String) (o : Output) :
    FormatterCSV.writeLines w lines o
      = { sink := o.sink ++ concatAll lines, writes := o.writes ++ lines, log := o.log } := by
  induction lines generalizing o with
  | nil => simp [FormatterCSV.writeLines, concatAll]
  | cons line rest ih =>
    simp [FormatterCSV.writeLines, ih, Output.write, hw, Output.logIfError, concatAll,
      String.append_assoc]

/-- C4: with a writer that accepts every write, `FormatterCSV.Write` after
adding `entries` to a fresh formatter leaves in the sink exactly the header
line followed by one line `parent,package,license` per entry, in accumulation
order and with the field text verbatim; the chunks written are the header and
those lines, and nothing is logged. -/
theorem csv_write_exact (w : Writer) (hw : ∀ held p, w held p = (held ++ p, none))
    (entries : List Entry) (o : Output) :
    FormatterCSV.Write w (entries.foldl FormatterCSV.AddEntry FormatterCSV.fresh) o
      = { sink := o.sink ++ ("Parent,Package,License\n" ++ concatAll (entries.map (fun e =>
            e.ParentPkgName ++ "," ++ e.PkgName ++ "," ++ e.LicenseName ++ "\n"))),
          writes := o.writes ++ "Parent,Package,License\n" :: entries.map (fun e =>
            e.ParentPkgName ++ "," ++ e.PkgName ++ "," ++ e.LicenseName ++ "\n"),
          log := o.log } := by
  have hheader : sprintfLine "Parent" "Package" "License" = "Parent,Package,License\n" := by
    decide
  simp [FormatterCSV.Write, csv_writeLines_accepting w hw, csv_lines_after_adds,
    FormatterCSV.fresh, Output.write, hw, Output.logIfError, hheader, String.append_assoc]

/-- Witness of C4 on the entries `(root,pkgA,MIT)`, `(pkgA,pkgB,Apache-2.0)`. -/
theorem csv_write_exact_witness :
    (∀ held p, acceptAll held p = (held ++ p, none)) ∧
    FormatterCSV.Write acceptAll
        (sampleEntries.foldl FormatterCSV.AddEntry FormatterCSV.fresh) Output.empty
      = { sink := "Parent,Package,License\nroot,pkgA,MIT\npkgA,pkgB,Apache-2.0\n",
          writes := ["Parent,Package,License\n", "root,pkgA,MIT\n", "pkgA,pkgB,Apache-2.0\n"],
          log := [] } :=
  ⟨fun _ _ => rfl,
   (csv_write_exact acceptAll (fun _ _ => rfl) sampleEntries Output.empty).trans (by decide)⟩

theorem json_entries_after_adds (entries : List Entry) (xs : List formattingEntry) :
    (entries.foldl FormatterJSON.AddEntry ⟨.elems xs⟩).entries
      = .elems (xs ++ entries.map (fun e => ⟨e.ParentPkgName, e.PkgName, e.LicenseName⟩)) := by
  induction entries generalizing xs with
  | nil => simp
  | cons e rest ih =>
    simp only [List.foldl_cons, FormatterJSON.AddEntry, GoSlice.append, ih]
    simp

theorem json_entries_of_nonempty (entries : List Entry) (h : entries ≠ []) :
    (entries.foldl FormatterJSON.AddEntry FormatterJSON.fresh).entries
      = .elems (entries.map (fun e => ⟨e.ParentPkgName, e.PkgName, e.LicenseName⟩)) := by
  cases entries with
  | nil => exact absurd rfl h
  | cons e rest =>
    simp only [List.foldl_cons, FormatterJSON.AddEntry, FormatterJSON.fresh, GoSlice.append]
    rw [json_entries_after_adds]
    simp

theorem json_write_writes (quote : String → String) (w : Writer) (formatter : FormatterJSON)
    (o : Output) :
    (FormatterJSON.Write quote w formatter o).writes
      = o.writes ++ [renderDoc quote (jsonOfEntries formatter.entries)] := by
  unfold FormatterJSON.Write MarshalIndent
  cases h : (w o.sink (renderDoc quote (jsonOfEntries formatter.entries))).2 <;>
    simp [Output.logIfError, Output.write, h, Output.logError]

/-- C5 (as stated, refuted at n = 0): a fresh `FormatterJSON` writes the
document `null`, which is not the empty array `[]`. -/
theorem json_write_empty_not_array :
    (FormatterJSON.Write plainQuote acceptAll FormatterJSON.fresh Output.empty).sink = "null" ∧
    jsonOfEntries FormatterJSON.fresh.entries ≠ JsonDoc.array [] ∧
    renderDoc plainQuote (JsonDoc.array []) = "[]" ∧
    (FormatterJSON.Write plainQuote acceptAll FormatterJSON.fresh Output.empty).sink
      ≠ renderDoc plainQuote (JsonDoc.array []) := by
  refine ⟨by decide, by decide, by decide, by decide⟩

/-- C5 (amended): for `n >= 1` entries added to a fresh `FormatterJSON`,
`Write` passes to the writer, in one call, one document that is the array of
the `n` objects in accumulation order, each with exactly the members `parent`,
`package`, `license` holding the entry's values, laid out with two spaces per
level; for `n = 0` the document is the JSON value `null`. -/
theorem json_write_document (quote : String → String) (w : Writer) (o : Output) :
    (FormatterJSON.Write quote w FormatterJSON.fresh o).writes = o.writes ++ ["null"] ∧
    ∀ entries : List Entry, entries ≠ [] →
      jsonOfEntries (entries.foldl FormatterJSON.AddEntry FormatterJSON.fresh).entries
        = JsonDoc.array (entries.map (fun e =>
            [("parent", e.ParentPkgName), ("package", e.PkgName), ("license", e.LicenseName)])) ∧
      (FormatterJSON.Write quote w
          (entries.foldl FormatterJSON.AddEntry FormatterJSON.fresh) o).writes
        = o.writes ++ ["[\n  " ++ joinIndented 1 (entries.map (fun e =>
            "\x7b\n    " ++ quote "parent" ++ ": " ++ quote e.ParentPkgName
              ++ ",\n    " ++ quote "package" ++ ": " ++ quote e.PkgName
              ++ ",\n    " ++ quote "license" ++ ": " ++ quote e.LicenseName
              ++ "\n  \x7d")) ++ "\n]"] := by
  refine ⟨by rw [json_write_writes]; rfl, ?_⟩
  intro entries hne
  have hdoc := json_entries_of_nonempty entries hne
  refine ⟨by rw [hdoc]; simp [jsonOfEntries, formattingEntry.toObject, Function.comp_def], ?_⟩
  rw [json_write_writes, hdoc]
  cases entries with
  | nil => exact absurd rfl hne
  | cons e rest =>
    have hobj : ∀ x : Entry,
        renderObject quote 1 (formattingEntry.toObject ⟨x.ParentPkgName, x.PkgName, x.LicenseName⟩)
          = "\x7b\n    " ++ quote "parent" ++ ": " ++ quote x.ParentPkgName
              ++ ",\n    " ++ quote "package" ++ ": " ++ quote x.PkgName
              ++ ",\n    " ++ quote "license" ++ ": " ++ quote x.LicenseName
              ++ "\n  \x7d" := by
      intro x
      have h2 : indentOf 2 = "    " := by decide
      have h1 : indentOf 1 = "  " := by decide
      simp [renderObject, renderContainer, formattingEntry.toObject, joinIndented, h1, h2,
        String.append_assoc]
    have h1 : indentOf 1 = "  " := by decide
    have h0 : indentOf 0 = "" := by decide
    simp only [jsonOfEntries, renderDoc, renderContainer, List.map_cons, List.map_map,
      Function.comp_def, hobj, h1, h0]
    simp [String.append_assoc]

/-- Witness of C5 (amended) on the entries `(root,pkgA,MIT)`,
`(pkgA,pkgB,Apache-2.0)`. -/
theorem json_write_document_witness :
    sampleEntries ≠ [] ∧
    (FormatterJSON.Write plainQuote acceptAll
        (sampleEntries.foldl FormatterJSON.AddEntry FormatterJSON.fresh) Output.empty).writes
      = ["[\n  \x7b\n    \"parent\": \"root\",\n    \"package\": \"pkgA\",\n    \"license\": \"MIT\"\n  \x7d,\n  \x7b\n    \"parent\": \"pkgA\",\n    \"package\": \"pkgB\",\n    \"license\": \"Apache-2.0\"\n  \x7d\n]"] :=
  ⟨by decide,
   ((json_write_document plainQuote acceptAll Output.empty).2 sampleEntries (by decide)).2.trans
     (by rfl)⟩

/-! ## Properties of the driver -/

theorem resolveRoots_calls_ok (resolve : Resolver) :
    ∀ (packages : List String) (t t1 : Tree),
      (resolveRoots resolve t packages).2 = .ok t1 →
      (resolveRoots resolve t packages).1 = packages.map Call.Resolve
  | [], _, _, _ => rfl
  | pkg :: rest, t, t1, h => by
    unfold resolveRoots at h ⊢
    rcases hr : resolve t pkg with ⟨t2, _ | err⟩
    · simp only [hr] at h ⊢
      simp [resolveRoots_calls_ok resolve rest t2 t1 h]
    · simp [hr] at h

theorem resolveRoots_append_error (resolve : Resolver) (pkg : String) (post : List String)
    (err : String) :
    ∀ (pre : List String) (t t1 : Tree),
      (resolveRoots resolve t pre).2 = .ok t1 → (resolve t1 pkg).2 = some err →
      resolveRoots resolve t (pre ++ pkg :: post)
        = ((pre ++ [pkg]).map Call.Resolve ++ [Call.Fatal err], .error err)
  | [], t, t1, h, herr => by
    have ht : t = t1 := by simpa [resolveRoots] using h
    subst ht
    rcases hr : resolve t pkg with ⟨t2, e⟩
    rw [hr] at herr
    simp only at herr
    subst herr
    simp [resolveRoots, hr]
  | q :: rest, t, t1, h, herr => by
    unfold resolveRoots at h
    rcases hr : resolve t q with ⟨t2, _ | e⟩
    · simp only [hr] at h
      have ih := resolveRoots_append_error resolve pkg post err rest t2 t1 h herr
      simp [resolveRoots, hr, ih]
    · simp [hr] at h

theorem performAll_append {σ : Type} (ops : FormatterOps σ) (w : Writer)
    (asEntry : Pkg → Entry) (s : ContextState σ) (xs ys : List Call) :
    performAll ops w asEntry s (xs ++ ys)
      = performAll ops w asEntry (performAll ops w asEntry s xs) ys := by
  simp [performAll]

theorem performAll_resolves {σ : Type} (ops : FormatterOps σ) (w : Writer)
    (asEntry : Pkg → Entry) (s : ContextState σ) (packages : List String) :
    performAll ops w asEntry s (packages.map Call.Resolve) = s := by
  induction packages with
  | nil => rfl
  | cons pkg rest ih => simpa [performAll, perform] using ih

theorem run_calls_no_close (resolve : Resolver) (depth : Int) (packages : List String) :
    (Run resolve depth packages).calls.any Call.isClose = false := by
  have hloop : ∀ (pkgs : List String) (t : Tree),
      (resolveRoots resolve t pkgs).1.any Call.isClose = false := by
    intro pkgs
    induction pkgs with
    | nil => intro t; rfl
    | cons pkg rest ih =>
      intro t
      unfold resolveRoots
      rcases hr : resolve t pkg with ⟨t2, _ | err⟩
      · simpa [Call.isClose] using ih t2
      · simp [Call.isClose]
  unfold Run
  simp only
  have h := hloop packages ⟨none, false, false, depth⟩
  rcases hr : resolveRoots resolve ⟨none, false, false, depth⟩ packages with ⟨calls, e | t1⟩
  · rw [hr] at h; simpa using h
  · rw [hr] at h
    cases hroot : t1.Root with
    | none => simpa [hroot] using h
    | some root =>
      simp only [hroot, List.any_append, h, Bool.false_or]
      simp [Call.isClose]

/-- C6 (failing input): with the two roots `a` and `b`, both resolving, `Run`
resolves each in order and then formats only the tree the last `Resolve` left
in `Root`: the formatter receives the entry of `b` (node `y`) alone, not the
entry of `a` (node `x`) followed by it. -/
theorem run_two_roots_formats_last_only :
    (Run sampleResolve 0 ["a", "b"]).calls.map Call.describe
      = ["Resolve a", "Resolve b", "AddEntry y", "Write"] ∧
    (Run sampleResolve 0 ["a", "b"]).outcome = Outcome.returned ∧
    addedNodes (Run sampleResolve 0 ["a", "b"]).calls = format sampleTreeB ∧
    (format sampleTreeA ++ format sampleTreeB).map Pkg.Name = ["x", "y"] ∧
    addedNodes (Run sampleResolve 0 ["a", "b"]).calls
      ≠ format sampleTreeA ++ format sampleTreeB := by
  refine ⟨by decide, by decide, rfl, by decide, ?_⟩
  intro h
  have h2 := congrArg List.length h
  revert h2
  decide

/-- C7: when the roots before `pkg` resolve and `Resolve` returns an error for
`pkg`, `Run` makes the `Resolve` calls up to `pkg`, invokes `Fatal` with that
error and the process exits: no `AddEntry` and no `Write` is called, and the
calls leave the formatter state, the sink and the chunks written of any
context as they were. -/
theorem run_aborts_on_resolve_error (resolve : Resolver) (depth : Int)
    (pre : List String) (pkg : String) (post : List String) (t : Tree) (err : String)
    (hpre : (resolveRoots resolve ⟨none, false, false, depth⟩ pre).2 = .ok t)
    (herr : (resolve t pkg).2 = some err) :
    (Run resolve depth (pre ++ pkg :: post)).calls
      = (pre ++ [pkg]).map Call.Resolve ++ [Call.Fatal err] ∧
    (Run resolve depth (pre ++ pkg :: post)).outcome = Outcome.exited 1 ∧
    (Run resolve depth (pre ++ pkg :: post)).calls.any Call.isAddEntry = false ∧
    (Run resolve depth (pre ++ pkg :: post)).calls.any Call.isWrite = false ∧
    ∀ (σ : Type) (ops : FormatterOps σ) (w : Writer) (asEntry : Pkg → Entry)
      (s : ContextState σ),
      (performAll ops w asEntry s (Run resolve depth (pre ++ pkg :: post)).calls).formatter
        = s.formatter ∧
      (performAll ops w asEntry s (Run resolve depth (pre ++ pkg :: post)).calls).out.sink
        = s.out.sink ∧
      (performAll ops w asEntry s (Run resolve depth (pre ++ pkg :: post)).calls).out.writes
        = s.out.writes := by
  have hloop := resolveRoots_append_error resolve pkg post err pre _ t hpre herr
  have hcalls : (Run resolve depth (pre ++ pkg :: post)).calls
      = (pre ++ [pkg]).map Call.Resolve ++ [Call.Fatal err] := by
    simp [Run, hloop]
  have hout : (Run resolve depth (pre ++ pkg :: post)).outcome = Outcome.exited 1 := by
    simp [Run, hloop]
  refine ⟨hcalls, hout, ?_, ?_, ?_⟩
  · rw [hcalls]; simp [Call.isAddEntry]
  · rw [hcalls]; simp [Call.isWrite]
  · intro σ ops w asEntry s
    rw [hcalls, performAll_append, performAll_resolves]
    simp [performAll, perform]

/-- Witness of C7: roots `a`, `zz`, `b`, where `zz` does not resolve. -/
theorem run_aborts_on_resolve_error_witness :
    (resolveRoots sampleResolve ⟨none, false, false, 0⟩ ["a"]).2
      = .ok ⟨some sampleTreeA, false, false, 0⟩ ∧
    (sampleResolve ⟨some sampleTreeA, false, false, 0⟩ "zz").2 = some "cannot resolve zz" ∧
    (Run sampleResolve 0 (["a"] ++ "zz" :: ["b"])).calls
      = (["a"] ++ ["zz"]).map Call.Resolve ++ [Call.Fatal "cannot resolve zz"] ∧
    (Run sampleResolve 0 (["a"] ++ "zz" :: ["b"])).outcome = Outcome.exited 1 :=
  have h := run_aborts_on_resolve_error sampleResolve 0 ["a"] "zz" ["b"]
    ⟨some sampleTreeA, false, false, 0⟩ "cannot resolve zz" rfl rfl
  ⟨rfl, rfl, h.1, h.2.1⟩

/-- C8 (failing input): no run calls `Context.Close`. With the single root `a`,
which resolves, the command's run is `Resolve a`, `AddEntry x`, `Write` and
then returns; performed on a context it leaves the sink unreleased, although
the validator has registered the close function of the output file. -/
theorem run_never_releases_sink :
    (∀ (resolve : Resolver) (depth : Int) (packages : List String),
      (rootCmdRun resolve depth packages).calls.any Call.isClose = false) ∧
    (rootCmdRun sampleResolve 0 ["a"]).calls.map Call.describe
      = ["Resolve a", "AddEntry x", "Write"] ∧
    (rootCmdRun sampleResolve 0 ["a"]).outcome = Outcome.returned ∧
    (performAll csvFormatter acceptAll sampleAsEntry ⟨FormatterCSV.fresh, Output.empty, false⟩
      (rootCmdRun sampleResolve 0 ["a"]).calls).closed = false ∧
    (rootCmdArgs sampleWorld ⟨false, "text", "out.csv", "csv", ""⟩ context.initial
      ["a"]).1.hasClose = true :=
  ⟨fun resolve depth packages => run_calls_no_close resolve depth packages,
   by decide, by decide, by decide, by decide⟩

/-- C9 (failing input): the validator rejects two arguments on their count,
with the message that one or more are expected, and stores nothing; a single
argument passes the count check and is stored as the packages. -/
theorem rootCmdArgs_rejects_two (world : World) (settings : Settings) (ctx : context)
    (a b : String) :
    rootCmdArgs world settings ctx [a, b]
      = (ctx, some "expected 1 or more package names, got 2") ∧
    (rootCmdArgs world settings ctx [a, b]).1.Packages = ctx.Packages ∧
    (rootCmdArgs sampleWorld defaultSettings context.initial ["a"]).2 = none ∧
    (rootCmdArgs sampleWorld defaultSettings context.initial ["a"]).1.Packages = ["a"] := by
  have h : rootCmdArgs world settings ctx [a, b]
      = (ctx, some "expected 1 or more package names, got 2") := by
    simp [rootCmdArgs]
    decide
  refine ⟨h, by rw [h], by decide, by decide⟩

/-- C10: on an empty package list the loop leaves the fresh tree as it is,
`Root` nil, and `Run` makes no call at all (no `Resolve`, no `AddEntry`, no
`Write`) and panics on the nil `Root`; when the list is not
empty, the resolve loop completes and the tree it leaves has a non-nil `Root`,
the dereference succeeds: `Run` formats that root, calls `Write` and returns. -/
theorem run_nil_root_panics :
    (∀ (resolve : Resolver) (depth : Int),
      (resolveRoots resolve ⟨none, false, false, depth⟩ []).2
        = .ok ⟨none, false, false, depth⟩ ∧
      (Run resolve depth []).calls = [] ∧ (Run resolve depth []).outcome = Outcome.panicked) ∧
    ∀ (resolve : Resolver) (depth : Int) (packages : List String) (t : Tree) (root : Pkg),
      packages ≠ [] →
      (resolveRoots resolve ⟨none, false, false, depth⟩ packages).2 = .ok t →
      t.Root = some root →
      (Run resolve depth packages).outcome = Outcome.returned ∧
      (Run resolve depth packages).calls
        = packages.map Call.Resolve ++ (format root).map Call.AddEntry ++ [Call.Write] := by
  refine ⟨fun resolve depth => ⟨rfl, rfl, rfl⟩, ?_⟩
  intro resolve depth packages t root _ hloop hroot
  have hcalls := resolveRoots_calls_ok resolve packages _ t hloop
  rcases hr : resolveRoots resolve ⟨none, false, false, depth⟩ packages with ⟨calls, r⟩
  rw [hr] at hloop hcalls
  simp only at hloop hcalls
  subst hloop hcalls
  simp [Run, hr, hroot]

/-- Witness of C10: the single root `a`, which resolves to `a -> [x]`. -/
theorem run_nil_root_panics_witness :
    ["a"] ≠ [] ∧
    (resolveRoots sampleResolve ⟨none, false, false, 0⟩ ["a"]).2
      = .ok ⟨some sampleTreeA, false, false, 0⟩ ∧
    (Run sampleResolve 0 ["a"]).outcome = Outcome.returned ∧
    (Run sampleResolve 0 ["a"]).calls
      = ["a"].map Call.Resolve ++ (format sampleTreeA).map Call.AddEntry ++ [Call.Write] :=
  have h := run_nil_root_panics.2 sampleResolve 0 ["a"]
    ⟨some sampleTreeA, false, false, 0⟩ sampleTreeA (by decide) rfl rfl
  ⟨by decide, rfl, h.1, h.2⟩

end GoDepReport
